import Mathlib

/-!
# TrafficLight.cpp: message queue and traffic light phase cycling

A shallow embedding of `src/TrafficLight.cpp`.

* `MessageQueue<T>` is a `std::deque<T>` guarded by `_mutex`, with a condition
  variable `_condition`.  Each critical section runs atomically, so one call of
  `send` is one step, and one call of `receive` is a step for the part before
  the wait followed by one step for every wakeup.  What the other threads do
  while the receiver sleeps is given as a schedule of events.
* `TrafficLight` holds `_currentPhase` and a `MessageQueue<TrafficLightPhase>`.
  The body of the loop of `cycleThroughPhases` is a function of the state and
  of the time sampled in that iteration.
-/

namespace ConcurrentTraffic

/-! ## Data model -/

/-- Modelled from the spec: the enumeration `TrafficLightPhase`, declared in
`TrafficLight.h`, which is not among the sources; the spec gives it exactly
the two variants red and green. -/
inductive TrafficLightPhase where
  | red
  | green
  deriving DecidableEq, Repr

/-- State of the one consumer thread with respect to `_condition`:
not inside `wait`, asleep inside `wait`, or asleep and already notified. -/
inductive Waiter where
  | absent
  | asleep
  | notified
  deriving DecidableEq, Repr

/-- Modelled from the spec: the members of `MessageQueue<T>`, declared in
`TrafficLight.h`, which is not among the sources.  `_queue` is the ordered
sequence of the spec (front first, back last), on which the code calls `clear`,
`empty`, `back`, `pop_back` and `push_back`; of the condition variable
`_condition` only the state of the waiting consumer matters. -/
structure MessageQueue (T : Type) where
  _queue : List T
  _condition : Waiter
  deriving DecidableEq, Repr

/-- What happens while a consumer is suspended: a producer runs `send(msg)`
to completion, or the consumer is scheduled again (after a notification or
spuriously, or because its sleep is over). -/
inductive Event (T : Type) where
  | send (msg : T)
  | wakeup
  deriving DecidableEq, Repr

/-- Result of one call of `receive` along a schedule: still waiting when the
schedule is exhausted, a read of `back()` on an empty deque, or a message
together with the queue left behind and the part of the schedule not yet
consumed. -/
inductive Outcome (T : Type) where
  | blocked
  | undefinedRead
  | returned (msg : T) (mq : MessageQueue T) (rest : List (Event T))
  deriving DecidableEq, Repr

/-! ## MessageQueue -/

namespace MessageQueue

variable {T : Type}

/-- The call `_condition.notify_one()`: a sleeping consumer becomes runnable;
without a sleeping consumer the notification is lost. -/
def notify_one : Waiter → Waiter
  | Waiter.asleep => Waiter.notified
  | w => w

/-- The method `MessageQueue<T>::send` (lines 26-35): under the lock,
`_queue.push_back(msg)` and then `_condition.notify_one()`. -/
def send (mq : MessageQueue T) (msg : T) : MessageQueue T :=
  { _queue := mq._queue ++ [msg], _condition := notify_one mq._condition }

/-- Lines 21-23 of `receive`: `msg = _queue.back(); _queue.pop_back(); return msg`.
On an empty deque `back()` has no defined result. -/
def takeBack (mq : MessageQueue T) (rest : List (Event T)) : Outcome T :=
  match mq._queue.getLast? with
  | none => Outcome.undefinedRead
  | some msg =>
    Outcome.returned msg { _queue := mq._queue.dropLast, _condition := Waiter.absent } rest

/-- The consumer inside `_condition.wait(lock)` of line 19, the lock released.
A `send` of a producer runs in full.  At a wakeup the lock is taken again and
the predicate `!_queue.empty()` is evaluated: when it fails the consumer waits
again, when it holds lines 21-23 run under the same lock.  At the end of the
schedule a notified consumer still gets its wakeup; one that was not notified
stays blocked. -/
def blockedWait (mq : MessageQueue T) : List (Event T) → Outcome T
  | [] =>
    match mq._condition with
    | Waiter.notified => if !mq._queue.isEmpty then takeBack mq [] else Outcome.blocked
    | _ => Outcome.blocked
  | Event.send msg :: es => blockedWait (mq.send msg) es
  | Event.wakeup :: es =>
    if !mq._queue.isEmpty then takeBack mq es
    else blockedWait { mq with _condition := Waiter.asleep } es

/-- The method `MessageQueue<T>::receive` (lines 10-24): take the lock,
`_queue.clear()`, then `_condition.wait(lock, pred)`, which is
`while (!pred()) wait(lock);` with `pred = !_queue.empty()`, then lines 21-23. -/
def receive (mq : MessageQueue T) (es : List (Event T)) : Outcome T :=
  let cleared : MessageQueue T := { mq with _queue := [] }
  if !cleared._queue.isEmpty then takeBack cleared es
  else blockedWait { cleared with _condition := Waiter.asleep } es

end MessageQueue

/-! ## TrafficLight -/

/-- Modelled from the spec: the data members of `TrafficLight` that
`TrafficLight.cpp` uses, declared in `TrafficLight.h`, which is not among the
sources: the current-phase cell and the queue of phases. -/
structure TrafficLight where
  _currentPhase : TrafficLightPhase
  _trafficLightQueue : MessageQueue TrafficLightPhase
  deriving DecidableEq, Repr

/-- The constructor `TrafficLight::TrafficLight` (lines 39-42); the queue
member is default-constructed, hence empty. -/
def TrafficLight.new : TrafficLight :=
  { _currentPhase := TrafficLightPhase.red,
    _trafficLightQueue := { _queue := [], _condition := Waiter.absent } }

/-- The method `TrafficLight::getCurrentPhase` (lines 60-64). -/
def TrafficLight.getCurrentPhase (tl : TrafficLight) : TrafficLightPhase :=
  tl._currentPhase

/-- The call `std::this_thread::sleep_for(1ms)` of the consumer (line 56):
producers run until the consumer is scheduled again or the schedule ends. -/
def sleep_for {T : Type} (mq : MessageQueue T) :
    List (Event T) → MessageQueue T × List (Event T)
  | [] => (mq, [])
  | Event.send msg :: es => sleep_for (mq.send msg) es
  | Event.wakeup :: es => (mq, es)

/-- Result of `waitForGreen` along a schedule.  `received` lists the phases
that the completed calls of `receive` returned, in order. -/
inductive WaitOutcome where
  | blocked (received : List TrafficLightPhase)
  | undefinedRead (received : List TrafficLightPhase)
  | returned (received : List TrafficLightPhase)
      (mq : MessageQueue TrafficLightPhase) (rest : List (Event TrafficLightPhase))
  deriving DecidableEq, Repr

/-- The method `TrafficLight::waitForGreen` (lines 44-58) on the member
`_trafficLightQueue`: call `receive`; return when it yields green; otherwise
sleep and call `receive` again.  `received` records the phases yielded so far
and plays no part in the control flow. -/
def waitForGreen (mq : MessageQueue TrafficLightPhase)
    (es : List (Event TrafficLightPhase))
    (received : List TrafficLightPhase) : WaitOutcome :=
  match h : mq.receive es with
  | Outcome.blocked => WaitOutcome.blocked received
  | Outcome.undefinedRead => WaitOutcome.undefinedRead received
  | Outcome.returned msg mq1 rest =>
    if msg = TrafficLightPhase.green then WaitOutcome.returned (received ++ [msg]) mq1 rest
    else waitForGreen (sleep_for mq1 rest).1 (sleep_for mq1 rest).2 (received ++ [msg])
termination_by es.length
decreasing_by
  have hsleep : ∀ (l : List (Event TrafficLightPhase)) (q : MessageQueue TrafficLightPhase),
      (sleep_for q l).2.length ≤ l.length := by
    intro l
    induction l with
    | nil => intro _; simp [sleep_for]
    | cons e l ih =>
      intro q
      cases e with
      | send v => simp only [sleep_for, List.length_cons]; exact Nat.le_succ_of_le (ih _)
      | wakeup => simp [sleep_for]
  have htake : ∀ (q : MessageQueue TrafficLightPhase) (l : List (Event TrafficLightPhase)),
      q.takeBack l = Outcome.returned msg mq1 rest → rest = l := by
    intro q l hq
    unfold MessageQueue.takeBack at hq
    split at hq
    · cases hq
    · injection hq with _ _ h3; exact h3.symm
  have hwait : ∀ (l : List (Event TrafficLightPhase)) (q : MessageQueue TrafficLightPhase),
      q.blockedWait l = Outcome.returned msg mq1 rest →
      rest.length ≤ l.length ∧ (l ≠ [] → rest.length < l.length) := by
    intro l
    induction l with
    | nil =>
      intro q hq
      simp only [MessageQueue.blockedWait] at hq
      split at hq
      · split at hq
        · simp [htake _ _ hq]
        · cases hq
      · cases hq
    | cons e l ih =>
      intro q hq
      cases e with
      | send v =>
        simp only [MessageQueue.blockedWait] at hq
        have := (ih _ hq).1
        simp only [List.length_cons]
        exact ⟨by omega, fun _ => by omega⟩
      | wakeup =>
        simp only [MessageQueue.blockedWait] at hq
        split at hq
        · simp [htake _ _ hq]
        · have := (ih _ hq).1
          simp only [List.length_cons]
          exact ⟨by omega, fun _ => by omega⟩
  have hlt : rest.length < es.length := by
    simp only [MessageQueue.receive, List.isEmpty_nil, Bool.not_true, Bool.false_eq_true,
      if_false] at h
    cases es with
    | nil => simp [MessageQueue.blockedWait] at h
    | cons e l => exact (hwait _ _ h).2 (by simp)
  have := hsleep rest mq1
  omega

/-- The messages that the producers append along a schedule, in order. -/
def sends {T : Type} : List (Event T) → List T
  | [] => []
  | Event.send msg :: es => msg :: sends es
  | Event.wakeup :: es => sends es

/-- A schedule in which `k` red values and then a green one are each sent
while the consumer waits: after a red value the consumer wakes up in `wait`
and once more at the end of its sleep. -/
def redsThenGreen : Nat → List (Event TrafficLightPhase)
  | 0 => [Event.send TrafficLightPhase.green]
  | k + 1 =>
    Event.send TrafficLightPhase.red :: Event.wakeup :: Event.wakeup :: redsThenGreen k

/-- A schedule in which `k` red values are each sent while the consumer waits,
and nothing else. -/
def redsOnly : Nat → List (Event TrafficLightPhase)
  | 0 => []
  | k + 1 => Event.send TrafficLightPhase.red :: Event.wakeup :: Event.wakeup :: redsOnly k

/-! ## cycleThroughPhases -/

/-- The conversion `std::chrono::duration_cast<std::chrono::milliseconds>(d).count()`
(lines 105-107) for a duration of `ticks` ticks of `system_clock`, with `period`
ticks per millisecond: integer division that truncates toward zero. -/
def duration_cast_ms (period : Nat) (ticks : Int) : Int :=
  Int.tdiv ticks (period : Int)

/-- A draw `dist(gen)` from `std::uniform_int_distribution<int> dist(a, b)`
(lines 89-94), as a function of the raw number that the generator supplies. -/
def uniform_int_distribution (a b : Int) (raw : Nat) : Int :=
  a + ((raw % (b - a + 1).toNat : Nat) : Int)

/-- Line 113: `_currentPhase == red ? green : red`. -/
def toggle (p : TrafficLightPhase) : TrafficLightPhase :=
  if p = TrafficLightPhase.red then TrafficLightPhase.green else TrafficLightPhase.red

/-- The object and the locals `startTime`, `cycleDuration` of
`cycleThroughPhases`; times are in ticks of `system_clock`. -/
structure CycleState where
  light : TrafficLight
  startTime : Int
  cycleDuration : Int
  deriving DecidableEq, Repr

/-- Lines 85-94: record the start time and draw the cycle duration. -/
def cycleStart (tl : TrafficLight) (now : Int) (raw : Nat) : CycleState :=
  { light := tl, startTime := now, cycleDuration := uniform_int_distribution 4000 6000 raw }

/-- The test of line 110 for the time sampled at line 102. -/
def cycleElapsed (period : Nat) (st : CycleState) (currentTime : Int) : Bool :=
  decide (duration_cast_ms period (currentTime - st.startTime) ≥ st.cycleDuration)

/-- One iteration of the loop of `cycleThroughPhases` (lines 96-121) after
its sleep, `currentTime` being the time sampled at line 102. -/
def cycleIteration (period : Nat) (st : CycleState) (currentTime : Int) : CycleState :=
  if cycleElapsed period st currentTime then
    let phase := toggle st.light._currentPhase
    { light := { _currentPhase := phase,
                 _trafficLightQueue := st.light._trafficLightQueue.send phase },
      startTime := currentTime,
      cycleDuration := st.cycleDuration }
  else st

/-- The method `TrafficLight::cycleThroughPhases` (lines 76-122) run for the
iterations whose sampled times are `samples`. -/
def cycleThroughPhases (period : Nat) (tl : TrafficLight) (now : Int) (raw : Nat)
    (samples : List Int) : CycleState :=
  samples.foldl (cycleIteration period) (cycleStart tl now raw)

/-- The sampled times of the iterations that take the branch of line 110,
that is, the times at which line 113 runs. -/
def toggleTimes (period : Nat) (st : CycleState) : List Int → List Int
  | [] => []
  | t :: ts =>
    if cycleElapsed period st t then t :: toggleTimes period (cycleIteration period st t) ts
    else toggleTimes period (cycleIteration period st t) ts

/-- Sampled times at which `n` successive cycles of `d` ticks each have just
elapsed, counted from `start`. -/
def regularSamples (d : Int) (start : Int) : Nat → List Int
  | 0 => []
  | n + 1 => (start + d) :: regularSamples d (start + d) n

/-! ## Lock discipline -/

/-- The two mutexes that the code locks: `_mutex` of the light (line 62) and
`_mutex` of the queue (lines 16 and 32). -/
inductive Mutex where
  | lightMutex
  | queueMutex
  deriving DecidableEq, Repr

/-- The accesses to shared state and the lock operations that a piece of code
performs, in program order. -/
inductive Access where
  | lock (m : Mutex)
  | unlock (m : Mutex)
  | readPhase
  | writePhase
  | queueOp
  deriving DecidableEq, Repr

/-- Accesses of `TrafficLight::getCurrentPhase` (lines 60-64): the
`lock_guard` on `_mutex`, the read of `_currentPhase`, the release. -/
def getCurrentPhaseAccesses : List Access :=
  [Access.lock Mutex.lightMutex, Access.readPhase, Access.unlock Mutex.lightMutex]

/-- Accesses of `MessageQueue::send` (lines 26-35) when called as in line
116, `msg` being a reference to `_currentPhase`: the `lock_guard` on the
queue mutex, `push_back` reading `msg`, `notify_one`, the release. -/
def sendAccesses : List Access :=
  [Access.lock Mutex.queueMutex, Access.readPhase, Access.queueOp, Access.queueOp,
   Access.unlock Mutex.queueMutex]

/-- Accesses of the branch of lines 110-120 of `cycleThroughPhases`: line 113
reads and writes `_currentPhase`, line 116 calls `send`. -/
def toggleAccesses : List Access :=
  [Access.readPhase, Access.writePhase] ++ sendAccesses

/-- Whether every access selected by `sel` happens while mutex `m` is held;
`held` tells whether `m` is held before the first access. -/
def guardedBy (m : Mutex) (sel : Access → Bool) : Bool → List Access → Bool
  | _, [] => true
  | held, a :: as =>
    match a with
    | Access.lock m1 => guardedBy m sel (held || decide (m1 = m)) as
    | Access.unlock m1 => guardedBy m sel (held && !decide (m1 = m)) as
    | _ => (!sel a || held) && guardedBy m sel held as

/-- Selects the writes to `_currentPhase`. -/
def isPhaseWrite : Access → Bool
  | Access.writePhase => true
  | _ => false

/-- Selects the reads of `_currentPhase`. -/
def isPhaseRead : Access → Bool
  | Access.readPhase => true
  | _ => false

/-! ## Lemmas on the queue -/

theorem sends_append {T : Type} (xs ys : List (Event T)) :
    sends (xs ++ ys) = sends xs ++ sends ys := by
  induction xs with
  | nil => rfl
  | cons e xs ih => cases e <;> simp [sends, ih]

theorem sends_map_send {T : Type} (s : List T) : sends (s.map Event.send) = s := by
  induction s with
  | nil => rfl
  | cons a s ih => simp [sends, ih]

theorem sends_replicate_wakeup {T : Type} (k : Nat) :
    sends (List.replicate k (Event.wakeup : Event T)) = [] := by
  induction k with
  | zero => rfl
  | succ k ih => simp [List.replicate_succ, sends, ih]

theorem takeBack_concat {T : Type} (q : List T) (m : T) (c : Waiter) (rest : List (Event T)) :
    MessageQueue.takeBack { _queue := q ++ [m], _condition := c } rest
      = Outcome.returned m { _queue := q, _condition := Waiter.absent } rest := by
  simp [MessageQueue.takeBack]

theorem takeBack_ne_undefinedRead {T : Type} (mq : MessageQueue T) (rest : List (Event T))
    (h : mq._queue.isEmpty = false) : mq.takeBack rest ≠ Outcome.undefinedRead := by
  obtain ⟨q, c⟩ := mq
  rcases List.eq_nil_or_concat q with hq | ⟨q0, m, hq⟩
  · subst hq; simp at h
  · rw [List.concat_eq_append] at hq; subst hq; rw [takeBack_concat]; simp

theorem blockedWait_ne_undefinedRead {T : Type} (es : List (Event T)) (mq : MessageQueue T) :
    mq.blockedWait es ≠ Outcome.undefinedRead := by
  induction es generalizing mq with
  | nil =>
    simp only [MessageQueue.blockedWait]
    split
    · split
      · rename_i h
        exact takeBack_ne_undefinedRead _ _ (by simpa using h)
      · simp
    · simp
  | cons e es ih =>
    cases e with
    | send v => simp only [MessageQueue.blockedWait]; exact ih _
    | wakeup =>
      simp only [MessageQueue.blockedWait]
      split
      · rename_i h
        exact takeBack_ne_undefinedRead _ _ (by simpa using h)
      · exact ih _

/-- Outcome of a wait that starts asleep on an empty queue or notified:
either nothing was ever sent and the consumer is blocked, or the consumer
returns at a wakeup (or at the end of the schedule) with the last message sent
so far, leaving the earlier ones. -/
theorem blockedWait_char {T : Type} (es : List (Event T)) (mq : MessageQueue T)
    (hinv : (mq._queue = [] ∧ mq._condition = Waiter.asleep) ∨ mq._condition = Waiter.notified) :
    (mq.blockedWait es = Outcome.blocked ∧ mq._queue = [] ∧ sends es = []) ∨
    ∃ m q1 pre rest,
      mq.blockedWait es = Outcome.returned m { _queue := q1, _condition := Waiter.absent } rest ∧
      q1 ++ [m] = mq._queue ++ sends pre ∧
      (es = pre ++ Event.wakeup :: rest ∨ (es = pre ∧ rest = [])) := by
  induction es generalizing mq with
  | nil =>
    obtain ⟨q, c⟩ := mq
    rcases hinv with ⟨hq, hc⟩ | hc
    · simp only at hq hc
      subst hq; subst hc
      left; simp [MessageQueue.blockedWait, sends]
    · simp only at hc
      subst hc
      rcases List.eq_nil_or_concat q with hq | ⟨q0, m, hq⟩
      · subst hq; left; simp [MessageQueue.blockedWait, sends]
      · rw [List.concat_eq_append] at hq
        subst hq
        right
        refine ⟨m, q0, [], [], ?_, by simp [sends], Or.inr ⟨rfl, rfl⟩⟩
        simp only [MessageQueue.blockedWait]
        rw [takeBack_concat]
        simp
  | cons e es ih =>
    obtain ⟨q, c⟩ := mq
    cases e with
    | send v =>
      have hinv1 : ((MessageQueue.send ⟨q, c⟩ v)._queue = [] ∧
          (MessageQueue.send ⟨q, c⟩ v)._condition = Waiter.asleep) ∨
          (MessageQueue.send ⟨q, c⟩ v)._condition = Waiter.notified := by
        right
        rcases hinv with ⟨_, hc⟩ | hc <;> simp only at hc <;> subst hc <;>
          simp [MessageQueue.send, MessageQueue.notify_one]
      rcases ih _ hinv1 with ⟨_, hq, _⟩ | ⟨m, q1, pre, rest, hret, hq, hes⟩
      · simp [MessageQueue.send] at hq
      · right
        refine ⟨m, q1, Event.send v :: pre, rest, ?_, ?_, ?_⟩
        · simpa only [MessageQueue.blockedWait] using hret
        · simpa [MessageQueue.send, sends] using hq
        · rcases hes with h | ⟨h, h1⟩
          · left; simp [h]
          · right; simp [h, h1]
    | wakeup =>
      rcases List.eq_nil_or_concat q with hq | ⟨q0, m, hq⟩
      · subst hq
        have hinv1 : ((⟨[], Waiter.asleep⟩ : MessageQueue T)._queue = [] ∧
            (⟨[], Waiter.asleep⟩ : MessageQueue T)._condition = Waiter.asleep) ∨
            (⟨[], Waiter.asleep⟩ : MessageQueue T)._condition = Waiter.notified :=
          Or.inl ⟨rfl, rfl⟩
        rcases ih _ hinv1 with ⟨hb, _, hs⟩ | ⟨m, q1, pre, rest, hret, hq, hes⟩
        · left
          refine ⟨?_, rfl, by simpa [sends] using hs⟩
          simpa [MessageQueue.blockedWait] using hb
        · right
          refine ⟨m, q1, Event.wakeup :: pre, rest, ?_, ?_, ?_⟩
          · simpa [MessageQueue.blockedWait] using hret
          · simpa [sends] using hq
          · rcases hes with h | ⟨h, h1⟩
            · left; simp [h]
            · right; simp [h, h1]
      · rw [List.concat_eq_append] at hq
        subst hq
        right
        refine ⟨m, q0, [], es, ?_, by simp [sends], Or.inl rfl⟩
        simp only [MessageQueue.blockedWait]
        rw [takeBack_concat]
        simp

theorem receive_eq_blockedWait {T : Type} (mq : MessageQueue T) (es : List (Event T)) :
    mq.receive es = MessageQueue.blockedWait ⟨[], Waiter.asleep⟩ es := by
  simp [MessageQueue.receive]

/-- Outcome of `receive`: blocked when nothing is sent during the call,
otherwise the last message sent before the wakeup at which it returns. -/
theorem receive_char {T : Type} (mq : MessageQueue T) (es : List (Event T)) :
    (mq.receive es = Outcome.blocked ∧ sends es = []) ∨
    ∃ m q1 pre rest,
      mq.receive es = Outcome.returned m { _queue := q1, _condition := Waiter.absent } rest ∧
      q1 ++ [m] = sends pre ∧
      (es = pre ++ Event.wakeup :: rest ∨ (es = pre ∧ rest = [])) := by
  rw [receive_eq_blockedWait]
  rcases blockedWait_char es ⟨[], Waiter.asleep⟩ (Or.inl ⟨rfl, rfl⟩) with
    ⟨hb, _, hs⟩ | ⟨m, q1, pre, rest, hret, hq, hes⟩
  · exact Or.inl ⟨hb, hs⟩
  · exact Or.inr ⟨m, q1, pre, rest, hret, by simpa using hq, hes⟩

theorem blockedWait_spurious {T : Type} (k : Nat) (es : List (Event T)) :
    MessageQueue.blockedWait ⟨[], Waiter.asleep⟩ (List.replicate k Event.wakeup ++ es)
      = MessageQueue.blockedWait ⟨[], Waiter.asleep⟩ es := by
  induction k with
  | zero => simp
  | succ k ih => simpa [List.replicate_succ, MessageQueue.blockedWait] using ih

theorem blockedWait_notified_sends {T : Type} (s : List T) (q : List T) (es : List (Event T)) :
    MessageQueue.blockedWait ⟨q, Waiter.notified⟩ (s.map Event.send ++ es)
      = MessageQueue.blockedWait ⟨q ++ s, Waiter.notified⟩ es := by
  induction s generalizing q with
  | nil => simp
  | cons a s ih =>
    simp [MessageQueue.blockedWait, MessageQueue.send, MessageQueue.notify_one, ih]

theorem blockedWait_asleep_sends {T : Type} (s : List T) (hs : s ≠ []) (es : List (Event T)) :
    MessageQueue.blockedWait ⟨[], Waiter.asleep⟩ (s.map Event.send ++ es)
      = MessageQueue.blockedWait ⟨s, Waiter.notified⟩ es := by
  cases s with
  | nil => exact absurd rfl hs
  | cons a s =>
    simp [MessageQueue.blockedWait, MessageQueue.send, MessageQueue.notify_one,
      blockedWait_notified_sends]

theorem takeBack_getLast {T : Type} (s : List T) (hs : s ≠ []) (c : Waiter)
    (rest : List (Event T)) :
    MessageQueue.takeBack { _queue := s, _condition := c } rest
      = Outcome.returned (s.getLast hs) { _queue := s.dropLast, _condition := Waiter.absent }
          rest := by
  simp [MessageQueue.takeBack, List.getLast?_eq_getLast _ hs]

theorem receive_rest_suffix {T : Type} {mq mq1 : MessageQueue T} {es rest : List (Event T)}
    {m : T} (h : mq.receive es = Outcome.returned m mq1 rest) :
    m ∈ sends es ∧ rest.length < es.length ∧ ∃ pre, es = pre ++ rest := by
  rcases receive_char mq es with ⟨hb, _⟩ | ⟨m0, q1, pre, rest0, hret, hq, hes⟩
  · rw [hb] at h; cases h
  · rw [hret] at h
    injection h with h1 h2 h3
    subst h1; subst h3
    have hmem : m0 ∈ sends pre := by rw [← hq]; simp
    rcases hes with h4 | ⟨h4, h5⟩
    · refine ⟨?_, ?_, pre ++ [Event.wakeup], by simp [h4]⟩
      · rw [h4, sends_append]; exact List.mem_append_left _ hmem
      · rw [h4]; simp; omega
    · subst h5
      refine ⟨by rw [h4]; exact hmem, ?_, es, by simp⟩
      rw [h4]
      cases pre with
      | nil => simp [sends] at hmem
      | cons e pre => simp

theorem sleep_for_suffix {T : Type} (es : List (Event T)) (mq : MessageQueue T) :
    ∃ pre, es = pre ++ (sleep_for mq es).2 := by
  induction es generalizing mq with
  | nil => exact ⟨[], by simp [sleep_for]⟩
  | cons e es ih =>
    cases e with
    | send v =>
      obtain ⟨pre, hpre⟩ := ih (mq.send v)
      refine ⟨Event.send v :: pre, ?_⟩
      simp only [sleep_for, List.cons_append]
      rw [← hpre]
    | wakeup => exact ⟨[Event.wakeup], by simp [sleep_for]⟩

theorem waitForGreen_blocked {mq : MessageQueue TrafficLightPhase}
    {es : List (Event TrafficLightPhase)} (received : List TrafficLightPhase)
    (h : mq.receive es = Outcome.blocked) :
    waitForGreen mq es received = WaitOutcome.blocked received := by
  unfold waitForGreen
  split <;> simp_all

theorem waitForGreen_green {mq mq1 : MessageQueue TrafficLightPhase}
    {es rest : List (Event TrafficLightPhase)} (received : List TrafficLightPhase)
    (h : mq.receive es = Outcome.returned TrafficLightPhase.green mq1 rest) :
    waitForGreen mq es received
      = WaitOutcome.returned (received ++ [TrafficLightPhase.green]) mq1 rest := by
  unfold waitForGreen
  split <;> simp_all

theorem waitForGreen_red {mq mq1 : MessageQueue TrafficLightPhase}
    {es rest : List (Event TrafficLightPhase)} (received : List TrafficLightPhase)
    (h : mq.receive es = Outcome.returned TrafficLightPhase.red mq1 rest) :
    waitForGreen mq es received
      = waitForGreen (sleep_for mq1 rest).1 (sleep_for mq1 rest).2
          (received ++ [TrafficLightPhase.red]) := by
  rw [waitForGreen]
  split <;> simp_all

theorem sends_suffix_mem {T : Type} {v : T} {es pre rest : List (Event T)}
    (h : es = pre ++ rest) (hv : v ∈ sends rest) : v ∈ sends es := by
  rw [h, sends_append]; exact List.mem_append_right _ hv

/-- Shape of every outcome of `waitForGreen`: the completed calls of `receive`
yielded some number of red values and then, when it returns, one green value,
which was sent during the call. -/
theorem waitForGreen_char (n : Nat) :
    ∀ (es : List (Event TrafficLightPhase)), es.length ≤ n →
    ∀ (mq : MessageQueue TrafficLightPhase) (received : List TrafficLightPhase),
    ∃ k, waitForGreen mq es received
        = WaitOutcome.blocked (received ++ List.replicate k TrafficLightPhase.red) ∨
      (TrafficLightPhase.green ∈ sends es ∧ ∃ mq1 rest, waitForGreen mq es received
        = WaitOutcome.returned
            (received ++ List.replicate k TrafficLightPhase.red ++ [TrafficLightPhase.green])
            mq1 rest) := by
  induction n with
  | zero =>
    intro es hlen mq received
    refine ⟨0, Or.inl ?_⟩
    have hes : es = [] := List.length_eq_zero.mp (Nat.le_zero.mp hlen)
    subst hes
    simpa using waitForGreen_blocked received
      (by simp [MessageQueue.receive, MessageQueue.blockedWait])
  | succ n ih =>
    intro es hlen mq received
    cases hr : mq.receive es with
    | blocked => exact ⟨0, Or.inl (by simpa using waitForGreen_blocked received hr)⟩
    | undefinedRead =>
      rw [receive_eq_blockedWait] at hr
      exact absurd hr (blockedWait_ne_undefinedRead _ _)
    | returned m mq1 rest =>
      obtain ⟨hmem, hlt, pre, hpre⟩ := receive_rest_suffix hr
      cases m with
      | green =>
        exact ⟨0, Or.inr ⟨hmem, mq1, rest, by simpa using waitForGreen_green received hr⟩⟩
      | red =>
        obtain ⟨pre1, hpre1⟩ := sleep_for_suffix rest mq1
        have hlen1 : (sleep_for mq1 rest).2.length ≤ n := by
          have h1 : rest.length = pre1.length + (sleep_for mq1 rest).2.length := by
            conv_lhs => rw [hpre1]
            simp
          omega
        obtain ⟨k, hk⟩ := ih _ hlen1 (sleep_for mq1 rest).1 (received ++ [TrafficLightPhase.red])
        refine ⟨k + 1, ?_⟩
        rw [waitForGreen_red received hr]
        rcases hk with hk | ⟨hg, mq2, rest2, hk⟩
        · left; rw [hk]; simp [List.replicate_succ]
        · right
          refine ⟨sends_suffix_mem hpre (sends_suffix_mem hpre1 hg), mq2, rest2, ?_⟩
          rw [hk]; simp [List.replicate_succ]

/-! ## Claims on the queue -/

/-- C7: for every queue content and every value, `send` is total and leaves
the sequence equal to the old one with the value appended at the back: the old
elements keep their places, the length grows by one, whatever the state of a
waiting consumer. -/
theorem send_appends_at_back {T : Type} (q : List T) (c : Waiter) (v : T) :
    (MessageQueue.send ⟨q, c⟩ v)._queue = q ++ [v] ∧
    (MessageQueue.send ⟨q, c⟩ v)._queue.length = q.length + 1 ∧
    (MessageQueue.send ⟨q, c⟩ v)._queue.take q.length = q ∧
    (MessageQueue.send ⟨q, c⟩ v)._queue.getLast? = some v := by
  simp [MessageQueue.send]

/-- C1: whatever the queue holds when `receive` is called, the outcome is the
one of a call on an empty queue; with no send during the call it stays blocked;
and when it returns, the message returned together with the messages left in
the queue are exactly the messages sent during the call up to the wakeup, so a
value queued before the call and not sent again is never returned. -/
theorem receive_discards_backlog {T : Type} (mq : MessageQueue T) (es : List (Event T)) :
    mq.receive es = MessageQueue.receive ⟨[], mq._condition⟩ es ∧
    (sends es = [] → mq.receive es = Outcome.blocked) ∧
    (∀ m mq1 rest, mq.receive es = Outcome.returned m mq1 rest →
      ∃ pre, (es = pre ++ Event.wakeup :: rest ∨ (es = pre ∧ rest = [])) ∧
        mq1._queue ++ [m] = sends pre) ∧
    (∀ v, v ∈ mq._queue → v ∉ sends es →
      ∀ mq1 rest, mq.receive es ≠ Outcome.returned v mq1 rest) := by
  have key : ∀ m mq1 rest, mq.receive es = Outcome.returned m mq1 rest →
      ∃ pre, (es = pre ++ Event.wakeup :: rest ∨ (es = pre ∧ rest = [])) ∧
        mq1._queue ++ [m] = sends pre := by
    intro m mq1 rest h
    rcases receive_char mq es with ⟨hb, _⟩ | ⟨m0, q1, pre, rest0, hret, hq, hes⟩
    · rw [hb] at h; cases h
    · rw [hret] at h
      injection h with h1 h2 h3
      subst h1; subst h2; subst h3
      exact ⟨pre, hes, hq⟩
  refine ⟨by simp [receive_eq_blockedWait], ?_, key, ?_⟩
  · intro hs
    rcases receive_char mq es with ⟨hb, _⟩ | ⟨m0, q1, pre, rest0, _, hq, hes⟩
    · exact hb
    · exfalso
      have hpre : sends pre = [] := by
        rcases hes with h | ⟨h, _⟩
        · rw [h, sends_append] at hs
          exact (List.append_eq_nil.mp hs).1
        · rw [h] at hs; exact hs
      rw [hpre] at hq
      simp at hq
  · intro v _ hv mq1 rest h
    obtain ⟨pre, hes, hq⟩ := key v mq1 rest h
    apply hv
    have hmem : v ∈ sends pre := by rw [← hq]; simp
    rcases hes with h1 | ⟨h1, _⟩
    · rw [h1, sends_append]; exact List.mem_append_left _ hmem
    · rw [h1]; exact hmem

/-- C2: when the values `s`, not empty, are sent while `receive` waits (after
any number of wakeups on the empty queue) and the consumer then wakes up, or
the schedule ends there, `receive` returns the last element of `s` and leaves
the queue holding `s` without its last element; after a single `send v` it
returns `v` and leaves the queue empty. -/
theorem receive_returns_last_sent {T : Type} (mq : MessageQueue T) (k : Nat) (s : List T)
    (hs : s ≠ []) (rest : List (Event T)) :
    mq.receive (List.replicate k Event.wakeup ++ (s.map Event.send ++ Event.wakeup :: rest))
      = Outcome.returned (s.getLast hs) ⟨s.dropLast, Waiter.absent⟩ rest ∧
    mq.receive (List.replicate k Event.wakeup ++ (s.map Event.send ++ []))
      = Outcome.returned (s.getLast hs) ⟨s.dropLast, Waiter.absent⟩ [] ∧
    (∀ v : T, mq.receive (Event.send v :: Event.wakeup :: rest)
      = Outcome.returned v ⟨[], Waiter.absent⟩ rest) := by
  refine ⟨?_, ?_, ?_⟩
  · rw [receive_eq_blockedWait, blockedWait_spurious, blockedWait_asleep_sends s hs]
    cases s with
    | nil => exact absurd rfl hs
    | cons a s =>
      simp only [MessageQueue.blockedWait, List.isEmpty_cons, Bool.not_false, if_true]
      exact takeBack_getLast _ _ _ _
  · rw [receive_eq_blockedWait, blockedWait_spurious, blockedWait_asleep_sends s hs]
    cases s with
    | nil => exact absurd rfl hs
    | cons a s =>
      simp only [MessageQueue.blockedWait, List.isEmpty_cons, Bool.not_false, if_true]
      exact takeBack_getLast _ _ _ _
  · intro v
    simp [MessageQueue.receive, MessageQueue.blockedWait, MessageQueue.send,
      MessageQueue.takeBack]

/-- C3: `receive` never reads `back()` of an empty sequence; wakeups that find
the sequence empty leave it waiting, so that the outcome is the one without
them; and every value it returns was appended by a `send` during the call. -/
theorem receive_waits_while_empty {T : Type} (mq : MessageQueue T) (es : List (Event T)) :
    mq.receive es ≠ Outcome.undefinedRead ∧
    (∀ k, mq.receive (List.replicate k Event.wakeup ++ es) = mq.receive es) ∧
    (∀ k, mq.receive (List.replicate k Event.wakeup) = Outcome.blocked) ∧
    (∀ m mq1 rest, mq.receive es = Outcome.returned m mq1 rest →
      mq1._queue ++ [m] ≠ [] ∧ m ∈ sends es) := by
  refine ⟨?_, ?_, ?_, ?_⟩
  · rw [receive_eq_blockedWait]; exact blockedWait_ne_undefinedRead _ _
  · intro k
    rw [receive_eq_blockedWait, receive_eq_blockedWait, blockedWait_spurious]
  · intro k
    have h := @blockedWait_spurious T k []
    rw [receive_eq_blockedWait]
    simpa [MessageQueue.blockedWait] using h
  · intro m mq1 rest h
    refine ⟨by simp, ?_⟩
    rcases receive_char mq es with ⟨hb, _⟩ | ⟨m0, q1, pre, rest0, hret, hq, hes⟩
    · rw [hb] at h; cases h
    · rw [hret] at h
      injection h with h1 h2 h3
      subst h1
      have hmem : m0 ∈ sends pre := by rw [← hq]; simp
      rcases hes with h4 | ⟨h4, _⟩
      · rw [h4, sends_append]; exact List.mem_append_left _ hmem
      · rw [h4]; exact hmem

/-! ## Claims on waitForGreen -/

/-- C4: along every schedule the calls of `receive` that complete inside
`waitForGreen` yield `k` red values followed, when it returns, by one green
value: it returns right after the first green, after `k + 1` calls, and never
after a red one; when every call yields red it stays blocked.  Each `k` occurs:
`k` red values and then a green one make it return after `k + 1` calls, and
`k` red values alone leave it blocked. -/
theorem waitForGreen_returns_at_first_green (mq : MessageQueue TrafficLightPhase)
    (es : List (Event TrafficLightPhase)) :
    (∃ k, waitForGreen mq es [] = WaitOutcome.blocked (List.replicate k TrafficLightPhase.red) ∨
      ∃ mq1 rest, waitForGreen mq es [] = WaitOutcome.returned
        (List.replicate k TrafficLightPhase.red ++ [TrafficLightPhase.green]) mq1 rest) ∧
    (∀ k, waitForGreen mq (redsThenGreen k) [] = WaitOutcome.returned
        (List.replicate k TrafficLightPhase.red ++ [TrafficLightPhase.green])
        ⟨[], Waiter.absent⟩ []) ∧
    (∀ k, waitForGreen mq (redsOnly k) []
        = WaitOutcome.blocked (List.replicate k TrafficLightPhase.red)) := by
  refine ⟨?_, ?_, ?_⟩
  · obtain ⟨k, hk⟩ := waitForGreen_char es.length es (Nat.le_refl _) mq []
    refine ⟨k, ?_⟩
    rcases hk with hk | ⟨_, mq1, rest, hk⟩
    · left; simpa using hk
    · right; exact ⟨mq1, rest, by simpa using hk⟩
  · intro k
    have gen : ∀ (k : Nat) (q : MessageQueue TrafficLightPhase)
        (received : List TrafficLightPhase),
        waitForGreen q (redsThenGreen k) received = WaitOutcome.returned
          (received ++ List.replicate k TrafficLightPhase.red ++ [TrafficLightPhase.green])
          ⟨[], Waiter.absent⟩ [] := by
      intro k
      induction k with
      | zero =>
        intro q received
        have hr : q.receive (redsThenGreen 0)
            = Outcome.returned TrafficLightPhase.green ⟨[], Waiter.absent⟩ [] := by
          simp [redsThenGreen, MessageQueue.receive, MessageQueue.blockedWait,
            MessageQueue.send, MessageQueue.takeBack, MessageQueue.notify_one]
        simpa using waitForGreen_green received hr
      | succ k ih =>
        intro q received
        have hr : q.receive (redsThenGreen (k + 1))
            = Outcome.returned TrafficLightPhase.red ⟨[], Waiter.absent⟩
                (Event.wakeup :: redsThenGreen k) := by
          simp [redsThenGreen, MessageQueue.receive, MessageQueue.blockedWait,
            MessageQueue.send, MessageQueue.takeBack, MessageQueue.notify_one]
        rw [waitForGreen_red received hr]
        simp only [sleep_for]
        rw [ih]
        simp [List.replicate_succ]
    simpa using gen k mq []
  · intro k
    have gen : ∀ (k : Nat) (q : MessageQueue TrafficLightPhase)
        (received : List TrafficLightPhase),
        waitForGreen q (redsOnly k) received
          = WaitOutcome.blocked (received ++ List.replicate k TrafficLightPhase.red) := by
      intro k
      induction k with
      | zero =>
        intro q received
        simpa using waitForGreen_blocked received
          (show q.receive (redsOnly 0) = Outcome.blocked by
            simp [redsOnly, MessageQueue.receive, MessageQueue.blockedWait])
      | succ k ih =>
        intro q received
        have hr : q.receive (redsOnly (k + 1))
            = Outcome.returned TrafficLightPhase.red ⟨[], Waiter.absent⟩
                (Event.wakeup :: redsOnly k) := by
          simp [redsOnly, MessageQueue.receive, MessageQueue.blockedWait,
            MessageQueue.send, MessageQueue.takeBack, MessageQueue.notify_one]
        rw [waitForGreen_red received hr]
        simp only [sleep_for]
        rw [ih]
        simp [List.replicate_succ]
    simpa using gen k mq []

/-- C5, as the code behaves: a value queued before `waitForGreen` is called
plays no part, the outcome is the one on an empty queue; `waitForGreen` returns
only when a green value is sent after the call began, and without such a send
it stays blocked. -/
theorem waitForGreen_needs_later_green (mq : MessageQueue TrafficLightPhase)
    (es : List (Event TrafficLightPhase)) :
    waitForGreen mq es [] = waitForGreen ⟨[], mq._condition⟩ es [] ∧
    (TrafficLightPhase.green ∉ sends es →
      ∃ k, waitForGreen mq es [] = WaitOutcome.blocked (List.replicate k TrafficLightPhase.red)) ∧
    (∀ rs mq1 rest, waitForGreen mq es [] = WaitOutcome.returned rs mq1 rest →
      TrafficLightPhase.green ∈ sends es) := by
  refine ⟨?_, ?_, ?_⟩
  · have hsame : MessageQueue.receive ⟨[], mq._condition⟩ es = mq.receive es := by
      rw [receive_eq_blockedWait, receive_eq_blockedWait]
    cases hr : mq.receive es with
    | blocked =>
      rw [hr] at hsame
      rw [waitForGreen_blocked [] hr, waitForGreen_blocked [] hsame]
    | undefinedRead =>
      rw [receive_eq_blockedWait] at hr
      exact absurd hr (blockedWait_ne_undefinedRead _ _)
    | returned m mq1 rest =>
      rw [hr] at hsame
      cases m with
      | green => rw [waitForGreen_green [] hr, waitForGreen_green [] hsame]
      | red => rw [waitForGreen_red [] hr, waitForGreen_red [] hsame]
  · intro hno
    obtain ⟨k, hk⟩ := waitForGreen_char es.length es (Nat.le_refl _) mq []
    rcases hk with hk | ⟨hg, _⟩
    · exact ⟨k, by simpa using hk⟩
    · exact absurd hg hno
  · intro rs mq1 rest h
    obtain ⟨k, hk⟩ := waitForGreen_char es.length es (Nat.le_refl _) mq []
    rcases hk with hk | ⟨hg, _⟩
    · rw [hk] at h; cases h
    · exact hg

/-- C5 at a concrete schedule: after one toggle the phase is green and green
is queued; wakeups alone follow, and `waitForGreen` is blocked. -/
theorem waitForGreen_needs_later_green_witness :
    TrafficLightPhase.green ∉ sends [(Event.wakeup : Event TrafficLightPhase), Event.wakeup] ∧
    ∃ k, waitForGreen ⟨[TrafficLightPhase.green], Waiter.absent⟩ [Event.wakeup, Event.wakeup] []
      = WaitOutcome.blocked (List.replicate k TrafficLightPhase.red) :=
  ⟨by simp [sends],
   (waitForGreen_needs_later_green ⟨[TrafficLightPhase.green], Waiter.absent⟩
      [Event.wakeup, Event.wakeup]).2.1 (by simp [sends])⟩

/-- C5 as stated fails: after the first toggle of a fresh light (sampled at
4000 ms, cycle duration 4000 ms) the phase is green and green is queued, yet
`waitForGreen` called then, with no later send, does not return. -/
theorem waitForGreen_queued_green_not_returned :
    (cycleThroughPhases 1 TrafficLight.new 0 0 [4000]).light.getCurrentPhase
      = TrafficLightPhase.green ∧
    (cycleThroughPhases 1 TrafficLight.new 0 0 [4000]).light._trafficLightQueue._queue
      = [TrafficLightPhase.green] ∧
    waitForGreen (cycleThroughPhases 1 TrafficLight.new 0 0 [4000]).light._trafficLightQueue
      [] [] = WaitOutcome.blocked [] ∧
    waitForGreen (cycleThroughPhases 1 TrafficLight.new 0 0 [4000]).light._trafficLightQueue
      [Event.wakeup, Event.wakeup] [] = WaitOutcome.blocked [] := by
  refine ⟨by decide, by decide, ?_, ?_⟩
  · exact waitForGreen_blocked [] (by decide)
  · exact waitForGreen_blocked [] (by decide)

/-! ## Concrete instances of the queue claims -/

/-- C1 at the queue left by `send(green)` then `send(red)` on a fresh queue:
with wakeups only, `receive` stays blocked. -/
theorem receive_discards_backlog_witness :
    sends [(Event.wakeup : Event TrafficLightPhase), Event.wakeup] = [] ∧
    MessageQueue.receive
      (MessageQueue.send (MessageQueue.send ⟨[], Waiter.absent⟩ TrafficLightPhase.green)
        TrafficLightPhase.red)
      [Event.wakeup, Event.wakeup] = Outcome.blocked :=
  ⟨by decide,
   (receive_discards_backlog
      (MessageQueue.send (MessageQueue.send ⟨[], Waiter.absent⟩ TrafficLightPhase.green)
        TrafficLightPhase.red)
      [Event.wakeup, Event.wakeup]).2.1 (by decide)⟩

/-- C2 at `s = [red, green]` sent after one spurious wakeup: `receive` returns
green and leaves `[red]`. -/
theorem receive_returns_last_sent_witness :
    [TrafficLightPhase.red, TrafficLightPhase.green] ≠ [] ∧
    MessageQueue.receive ⟨[TrafficLightPhase.red], Waiter.absent⟩
      [Event.wakeup, Event.send TrafficLightPhase.red, Event.send TrafficLightPhase.green,
       Event.wakeup, Event.send TrafficLightPhase.red]
      = Outcome.returned TrafficLightPhase.green ⟨[TrafficLightPhase.red], Waiter.absent⟩
          [Event.send TrafficLightPhase.red] :=
  ⟨by decide,
   (receive_returns_last_sent ⟨[TrafficLightPhase.red], Waiter.absent⟩ 1
      [TrafficLightPhase.red, TrafficLightPhase.green] (by decide)
      [Event.send TrafficLightPhase.red]).1⟩

/-- C3 at a schedule with a spurious wakeup before the only send: the value
returned is the one sent. -/
theorem receive_waits_while_empty_witness :
    MessageQueue.receive ⟨[TrafficLightPhase.red], Waiter.absent⟩
      [Event.wakeup, Event.send TrafficLightPhase.green, Event.wakeup]
      = Outcome.returned TrafficLightPhase.green ⟨[], Waiter.absent⟩ [] ∧
    TrafficLightPhase.green ∈
      sends [Event.wakeup, Event.send TrafficLightPhase.green, Event.wakeup] :=
  ⟨by decide,
   ((receive_waits_while_empty ⟨[TrafficLightPhase.red], Waiter.absent⟩
      [Event.wakeup, Event.send TrafficLightPhase.green, Event.wakeup]).2.2.2
      TrafficLightPhase.green ⟨[], Waiter.absent⟩ [] (by decide)).2⟩

/-! ## Lemmas on cycleThroughPhases -/

theorem uniform_int_distribution_bounds (raw : Nat) :
    4000 ≤ uniform_int_distribution 4000 6000 raw ∧
    uniform_int_distribution 4000 6000 raw ≤ 6000 := by
  have h : ((6000 : Int) - 4000 + 1).toNat = 2001 := by decide
  have h1 : raw % 2001 < 2001 := Nat.mod_lt _ (by decide)
  simp only [uniform_int_distribution, h]
  omega

theorem duration_cast_ms_ge {period : Nat} (hperiod : 0 < period) {ticks d : Int}
    (hd : 0 < d) (h : duration_cast_ms period ticks ≥ d) : d * (period : Int) ≤ ticks := by
  unfold duration_cast_ms at h
  have hp : (0 : Int) < (period : Int) := by exact_mod_cast hperiod
  rcases Int.lt_or_le ticks 0 with hneg | hnonneg
  · exfalso
    have h1 : (0 : Int) ≤ (-ticks).tdiv (period : Int) :=
      Int.tdiv_nonneg (by omega) (Int.le_of_lt hp)
    rw [Int.neg_tdiv] at h1
    omega
  · rw [Int.tdiv_eq_ediv hnonneg (Int.le_of_lt hp)] at h
    exact (Int.le_ediv_iff_mul_le hp).mp h

theorem cycleIteration_cycleDuration (period : Nat) (st : CycleState) (t : Int) :
    (cycleIteration period st t).cycleDuration = st.cycleDuration := by
  unfold cycleIteration
  split <;> rfl

theorem foldl_cycleDuration (period : Nat) (samples : List Int) (st : CycleState) :
    (samples.foldl (cycleIteration period) st).cycleDuration = st.cycleDuration := by
  induction samples generalizing st with
  | nil => rfl
  | cons t ts ih => simp only [List.foldl_cons]; rw [ih, cycleIteration_cycleDuration]

theorem foldl_phase (period : Nat) (samples : List Int) (st : CycleState) :
    (samples.foldl (cycleIteration period) st).light._currentPhase
      = toggle^[(toggleTimes period st samples).length] st.light._currentPhase := by
  induction samples generalizing st with
  | nil => rfl
  | cons t ts ih =>
    simp only [List.foldl_cons, toggleTimes]
    rw [ih]
    by_cases h : cycleElapsed period st t = true
    · simp [h, cycleIteration, Function.iterate_succ_apply]
    · simp [h, cycleIteration]

theorem foldl_startTime (period : Nat) (samples : List Int) (st : CycleState) :
    (samples.foldl (cycleIteration period) st).startTime
      = (toggleTimes period st samples).getLastD st.startTime := by
  induction samples generalizing st with
  | nil => rfl
  | cons t ts ih =>
    simp only [List.foldl_cons, toggleTimes]
    rw [ih]
    by_cases h : cycleElapsed period st t = true
    · simp only [h, if_true]
      cases hts : toggleTimes period (cycleIteration period st t) ts with
      | nil => simp [cycleIteration, h]
      | cons a l => simp [List.getLastD]
    · simp [h, cycleIteration]

theorem toggle_iterate (n : Nat) :
    toggle^[n] TrafficLightPhase.red
      = if n % 2 = 0 then TrafficLightPhase.red else TrafficLightPhase.green := by
  induction n with
  | zero => rfl
  | succ n ih =>
    rw [Function.iterate_succ_apply', ih]
    rcases Nat.mod_two_eq_zero_or_one n with h | h
    · have h2 : (n + 1) % 2 = 1 := by omega
      simp [h, h2, toggle]
    · have h2 : (n + 1) % 2 = 0 := by omega
      simp [h, h2, toggle]

theorem toggleTimes_chain (period : Nat) (hperiod : 0 < period) (samples : List Int)
    (st : CycleState) (hd : 0 < st.cycleDuration) :
    List.Chain (fun a b => st.cycleDuration * (period : Int) ≤ b - a) st.startTime
      (toggleTimes period st samples) := by
  induction samples generalizing st with
  | nil => exact List.Chain.nil
  | cons t ts ih =>
    simp only [toggleTimes]
    by_cases h : cycleElapsed period st t = true
    · simp only [h, if_true]
      have hge : duration_cast_ms period (t - st.startTime) ≥ st.cycleDuration := by
        simpa [cycleElapsed] using h
      have h1 := ih (cycleIteration period st t)
        (by rw [cycleIteration_cycleDuration]; exact hd)
      rw [cycleIteration_cycleDuration] at h1
      have h2 : (cycleIteration period st t).startTime = t := by simp [cycleIteration, h]
      rw [h2] at h1
      exact List.Chain.cons (duration_cast_ms_ge hperiod hd hge) h1
    · have h2 : cycleIteration period st t = st := by simp [cycleIteration, h]
      simp only [h, h2]
      exact ih st hd

theorem toggleTimes_regularSamples (d : Int) (n : Nat) (st : CycleState)
    (hd : st.cycleDuration = d) :
    toggleTimes 1 st (regularSamples d st.startTime n) = regularSamples d st.startTime n := by
  induction n generalizing st with
  | zero => rfl
  | succ n ih =>
    have h : cycleElapsed 1 st (st.startTime + d) = true := by
      simp [cycleElapsed, duration_cast_ms, hd]
    have h2 : (cycleIteration 1 st (st.startTime + d)).startTime = st.startTime + d := by
      simp [cycleIteration, h]
    have h3 := ih (cycleIteration 1 st (st.startTime + d))
      (by rw [cycleIteration_cycleDuration]; exact hd)
    rw [h2] at h3
    simp only [regularSamples, toggleTimes, h, if_true, h3]

theorem regularSamples_length (d s : Int) (n : Nat) : (regularSamples d s n).length = n := by
  induction n generalizing s with
  | zero => rfl
  | succ n ih => simp [regularSamples, ih]

/-! ## Claims on cycleThroughPhases -/

/-- C6: a fresh light is red; a toggle always changes the phase, the first one
gives green and two in a row restore the phase; after a run of the toggling
loop `getCurrentPhase` is red when the number of toggles is even and green
when it is odd; and every number of toggles occurs in some run. -/
theorem phase_alternates (period : Nat) (now : Int) (raw : Nat) (samples : List Int) :
    TrafficLight.new.getCurrentPhase = TrafficLightPhase.red ∧
    (∀ p, toggle p ≠ p ∧ toggle (toggle p) = p) ∧
    toggle TrafficLightPhase.red = TrafficLightPhase.green ∧
    (∀ st t, (cycleIteration period st t).light.getCurrentPhase
      = if cycleElapsed period st t then toggle st.light.getCurrentPhase
        else st.light.getCurrentPhase) ∧
    (cycleThroughPhases period TrafficLight.new now raw samples).light.getCurrentPhase
      = (if (toggleTimes period (cycleStart TrafficLight.new now raw) samples).length % 2 = 0
         then TrafficLightPhase.red else TrafficLightPhase.green) ∧
    (∀ n,
      (toggleTimes 1 (cycleStart TrafficLight.new 0 0) (regularSamples 4000 0 n)).length = n ∧
      (cycleThroughPhases 1 TrafficLight.new 0 0 (regularSamples 4000 0 n)).light.getCurrentPhase
        = (if n % 2 = 0 then TrafficLightPhase.red else TrafficLightPhase.green)) := by
  have hrun : ∀ (per : Nat) (t0 : Int) (r : Nat) (l : List Int),
      (cycleThroughPhases per TrafficLight.new t0 r l).light.getCurrentPhase
        = (if (toggleTimes per (cycleStart TrafficLight.new t0 r) l).length % 2 = 0
           then TrafficLightPhase.red else TrafficLightPhase.green) := by
    intro per t0 r l
    simp only [cycleThroughPhases, TrafficLight.getCurrentPhase]
    rw [foldl_phase]
    exact toggle_iterate _
  refine ⟨rfl, ?_, rfl, ?_, hrun period now raw samples, ?_⟩
  · intro p
    cases p <;> simp [toggle]
  · intro st t
    by_cases h : cycleElapsed period st t = true <;>
      simp [cycleIteration, h, TrafficLight.getCurrentPhase]
  · intro n
    have hlen : (toggleTimes 1 (cycleStart TrafficLight.new 0 0) (regularSamples 4000 0 n)).length
        = n := by
      have h := toggleTimes_regularSamples 4000 n (cycleStart TrafficLight.new 0 0) (by decide)
      have h0 : (cycleStart TrafficLight.new 0 0).startTime = 0 := rfl
      rw [h0] at h
      rw [h, regularSamples_length]
    refine ⟨hlen, ?_⟩
    rw [hrun, hlen]

/-- C9: one iteration of the toggling loop at sampled time `t`, from phase
`p`, queue `q`, start time `s` and cycle duration `d`.  When the elapsed whole
milliseconds reach `d`, the phase becomes the opposite of `p`, that new phase
is appended to the queue (it is what `getCurrentPhase` returns afterwards) and
the start time becomes `t`; otherwise nothing changes. -/
theorem cycleIteration_toggles_when_elapsed (period : Nat) (p : TrafficLightPhase)
    (q : List TrafficLightPhase) (c : Waiter) (s d t : Int) :
    (duration_cast_ms period (t - s) ≥ d →
      cycleIteration period ⟨⟨p, ⟨q, c⟩⟩, s, d⟩ t
        = ⟨⟨toggle p, ⟨q ++ [toggle p], MessageQueue.notify_one c⟩⟩, t, d⟩ ∧
      toggle p ≠ p ∧
      (cycleIteration period ⟨⟨p, ⟨q, c⟩⟩, s, d⟩ t).light._trafficLightQueue._queue
        = q ++ [(cycleIteration period ⟨⟨p, ⟨q, c⟩⟩, s, d⟩ t).light.getCurrentPhase]) ∧
    (duration_cast_ms period (t - s) < d →
      cycleIteration period ⟨⟨p, ⟨q, c⟩⟩, s, d⟩ t = ⟨⟨p, ⟨q, c⟩⟩, s, d⟩) := by
  constructor
  · intro h
    have hc : cycleElapsed period ⟨⟨p, ⟨q, c⟩⟩, s, d⟩ t = true := by
      simpa [cycleElapsed] using h
    refine ⟨by simp [cycleIteration, hc, MessageQueue.send], by cases p <;> simp [toggle], ?_⟩
    simp [cycleIteration, hc, MessageQueue.send, TrafficLight.getCurrentPhase]
  · intro h
    have hc : cycleElapsed period ⟨⟨p, ⟨q, c⟩⟩, s, d⟩ t = false := by
      simpa [cycleElapsed] using h
    simp [cycleIteration, hc]

/-- C9 at a light that is red with an empty queue, times in nanoseconds: at
4000 ms after the start, with a cycle of 4000 ms, the iteration toggles. -/
theorem cycleIteration_toggles_when_elapsed_witness :
    duration_cast_ms 1000000 (4000000000 - 0) ≥ 4000 ∧
    cycleIteration 1000000
        ⟨⟨TrafficLightPhase.red, ⟨[], Waiter.absent⟩⟩, 0, 4000⟩ 4000000000
      = ⟨⟨toggle TrafficLightPhase.red,
          ⟨[] ++ [toggle TrafficLightPhase.red], MessageQueue.notify_one Waiter.absent⟩⟩,
         4000000000, 4000⟩ :=
  ⟨by decide,
   ((cycleIteration_toggles_when_elapsed 1000000 TrafficLightPhase.red [] Waiter.absent
      0 4000 4000000000).1 (by decide)).1⟩

/-- C10: in a run of the toggling loop the cycle duration `d` is drawn once,
lies in `[4000, 6000]` and is the same after every iteration; the start time
is the sampled time of the last toggle (the recorded start before the first);
an iteration sampled less than `d` ms after it changes nothing; so consecutive
toggle times, the recorded start first, are at least `d` ms, hence at least
4000 ms, apart. -/
theorem toggles_at_least_cycleDuration_apart (period : Nat) (hperiod : 0 < period)
    (tl : TrafficLight) (now : Int) (raw : Nat) (samples : List Int) :
    4000 ≤ (cycleStart tl now raw).cycleDuration ∧
    (cycleStart tl now raw).cycleDuration ≤ 6000 ∧
    (∀ pre : List Int, (cycleThroughPhases period tl now raw pre).cycleDuration
      = (cycleStart tl now raw).cycleDuration) ∧
    (cycleThroughPhases period tl now raw samples).startTime
      = (toggleTimes period (cycleStart tl now raw) samples).getLastD now ∧
    (∀ t : Int,
      t - (cycleThroughPhases period tl now raw samples).startTime
        < (cycleStart tl now raw).cycleDuration * (period : Int) →
      cycleIteration period (cycleThroughPhases period tl now raw samples) t
        = cycleThroughPhases period tl now raw samples) ∧
    List.Chain (fun a b => (cycleStart tl now raw).cycleDuration * (period : Int) ≤ b - a) now
      (toggleTimes period (cycleStart tl now raw) samples) ∧
    List.Chain (fun a b => 4000 * (period : Int) ≤ b - a) now
      (toggleTimes period (cycleStart tl now raw) samples) := by
  obtain ⟨hlo, hhi⟩ := uniform_int_distribution_bounds raw
  have hd : (cycleStart tl now raw).cycleDuration = uniform_int_distribution 4000 6000 raw := rfl
  have hpos : 0 < (cycleStart tl now raw).cycleDuration := by rw [hd]; omega
  have hchain := toggleTimes_chain period hperiod samples (cycleStart tl now raw) hpos
  have hs : (cycleStart tl now raw).startTime = now := rfl
  rw [hs] at hchain
  refine ⟨by rw [hd]; exact hlo, by rw [hd]; exact hhi, ?_, ?_, ?_, hchain, ?_⟩
  · intro pre
    simp only [cycleThroughPhases]
    exact foldl_cycleDuration _ _ _
  · simp only [cycleThroughPhases]
    rw [foldl_startTime, hs]
  · intro t ht
    have hdur : (cycleThroughPhases period tl now raw samples).cycleDuration
        = (cycleStart tl now raw).cycleDuration := by
      simp only [cycleThroughPhases]
      exact foldl_cycleDuration _ _ _
    have hc : cycleElapsed period (cycleThroughPhases period tl now raw samples) t = false := by
      by_contra hne
      have htrue : cycleElapsed period (cycleThroughPhases period tl now raw samples) t = true := by
        simpa using hne
      have hge : duration_cast_ms period
          (t - (cycleThroughPhases period tl now raw samples).startTime)
          ≥ (cycleThroughPhases period tl now raw samples).cycleDuration := by
        simpa [cycleElapsed] using htrue
      have := duration_cast_ms_ge hperiod (by rw [hdur]; exact hpos) hge
      rw [hdur] at this
      omega
    simp [cycleIteration, hc]
  · refine List.Chain.imp ?_ hchain
    intro a b hab
    have hp : (0 : Int) ≤ (period : Int) := Int.ofNat_nonneg _
    have : 4000 * (period : Int) ≤ (cycleStart tl now raw).cycleDuration * (period : Int) :=
      Int.mul_le_mul_of_nonneg_right (by rw [hd]; exact hlo) hp
    omega

/-- C10 at a run with times in microseconds and a drawn duration of 4005 ms:
an iteration sampled 4004.999 ms after the start changes nothing. -/
theorem toggles_at_least_cycleDuration_apart_witness :
    0 < 1000 ∧
    (cycleThroughPhases 1000 TrafficLight.new 0 5 [1000, 4005000, 5000000]).startTime
      = (toggleTimes 1000 (cycleStart TrafficLight.new 0 5) [1000, 4005000, 5000000]).getLastD 0 ∧
    List.Chain (fun a b => 4000 * ((1000 : Nat) : Int) ≤ b - a) 0
      (toggleTimes 1000 (cycleStart TrafficLight.new 0 5) [1000, 4005000, 5000000]) :=
  ⟨by decide,
   (toggles_at_least_cycleDuration_apart 1000 (by decide) TrafficLight.new 0 5
      [1000, 4005000, 5000000]).2.2.2.1,
   (toggles_at_least_cycleDuration_apart 1000 (by decide) TrafficLight.new 0 5
      [1000, 4005000, 5000000]).2.2.2.2.2.2⟩

/-! ## Claim on the lock discipline -/

/-- C8 on the code: `getCurrentPhase` reads `_currentPhase` with the light's
mutex held, whereas the toggling branch of `cycleThroughPhases` writes it, and
reads it, with that mutex not held. -/
theorem toggle_writes_phase_without_light_mutex :
    guardedBy Mutex.lightMutex isPhaseRead false getCurrentPhaseAccesses = true ∧
    guardedBy Mutex.lightMutex isPhaseWrite false toggleAccesses = false ∧
    guardedBy Mutex.lightMutex isPhaseRead false toggleAccesses = false := by
  decide

end ConcurrentTraffic
